import Mathlib

/-!
Verification of the `verifiable_shuffle` smart contract
(`smart_contracts/verifiable_shuffle/contract.py`).

The contract's AVM code works on 64-bit unsigned integers (`UInt64`) with
wide intermediates (`op.mulw` / `op.divw`).  We embed the arithmetic in
`Nat`.  Within the envelope in which the contract runs these subroutines
(fractional precision `m = 16` from `config.LOG_PRECISION`, logarithm
arguments kept below `2 ^ 63` by `k_permutation_logarithm`, participant
counts below `2 ^ 32`, winner counts below `2 ^ 8`) no AVM operation wraps
or panics, so plain `Nat` arithmetic agrees with the AVM semantics; all
theorems below are stated inside that envelope.

`op.bitlen` is embedded as `bitlen` (equal to `Nat.size`: both send `0` to
`0` and a positive `n` to `⌊log2 n⌋ + 1`).  `op.mulw a b` is the 128-bit
product split into high and low 64-bit words, embedded as
`(a * b / 2 ^ 64, a * b % 2 ^ 64)`.
-/

namespace VerifiableShuffle

/-- Embedding of `op.mulw`: the double-width product split into the high and
low 64-bit words. -/
def mulw (a b : Nat) : Nat × Nat :=
  (a * b / 2 ^ 64, a * b % 2 ^ 64)

/-- Fuel-driven helper of `bitlen` (the fuel only forces structural
termination; `n` halves with each step, so the fuel `n` is never
exhausted). -/
def bitlenAux : Nat → Nat → Nat
  | 0, _ => 0
  | fuel + 1, n => if n = 0 then 0 else bitlenAux fuel (n / 2) + 1

/-- Embedding of `op.bitlen`: the number of binary digits, sending `0` to
`0` and a positive `n` to `⌊log2 n⌋ + 1` (same function as `Nat.size`,
written so that it reduces by kernel computation). -/
def bitlen (n : Nat) : Nat := bitlenAux n n

/-- Fractional-bit loop of `binary_logarithm` (`contract.py`, the
`for _i in urange(m)` loop).  State is the pair
`(fractional_component, n)`; one recursive step is one loop iteration:
shift the accumulator, square the mantissa with wide arithmetic
(`op.mulw` then `op.divw` by `1 << integer_component`, i.e. floor division),
and if the scaled mantissa reached `2 << integer_component` emit a `1` bit
and halve. -/
def blogLoop (ic : Nat) : Nat → Nat → Nat → Nat × Nat
  | 0, fc, x => (fc, x)
  | t + 1, fc, x =>
    let fc1 := fc <<< 1
    let x1 := x * x / (1 <<< ic)
    if 2 <<< ic ≤ x1 then blogLoop ic t (fc1 ||| 1) (x1 >>> 1)
    else blogLoop ic t fc1 x1

/-- Embedding of the subroutine `binary_logarithm(n, m)` of `contract.py`:
the integer part of the binary logarithm comes from the position of the
most significant set bit (`op.bitlen(n) - 1`); if `n` is an exact power of
two the function returns early, otherwise the fractional part is discovered
bit by bit by `blogLoop`. -/
def binary_logarithm (n m : Nat) : Nat :=
  let integer_component := bitlen n - 1
  if n = 1 <<< integer_component then integer_component <<< m
  else (integer_component <<< m) ||| (blogLoop integer_component m 0 n).1

/-- Overflow test of the batching loop in `k_permutation_logarithm`:
`overflow, low = op.mulw(largest_log_arg, i)` followed by
`if overflow or op.bitlen(low) == 64`. -/
def mulwOverflows (a i : Nat) : Bool :=
  decide ((mulw a i).1 ≠ 0) || decide (bitlen (mulw a i).2 = 64)

/-- Body of the `for i in urange(n - k + 1, n + 1)` loop of
`k_permutation_logarithm`: state is `(largest_log_arg, summation)`; when the
running product would no longer fit the accumulated product is
logarithm-reduced and a new product starts from the overflowing term. -/
def kpermLoop (m : Nat) : List Nat → Nat → Nat → Nat × Nat
  | [], arg, s => (arg, s)
  | i :: rest, arg, s =>
    if mulwOverflows arg i then kpermLoop m rest i (s + binary_logarithm arg m)
    else kpermLoop m rest (arg * i) s

/-- Embedding of the subroutine `k_permutation_logarithm(n, k, m)` of
`contract.py`.  `urange(n - k + 1, n + 1)` is the list
`List.range' (n - k + 1) k` (for `k ≤ n`). -/
def k_permutation_logarithm (n k m : Nat) : Nat :=
  let r := kpermLoop m (List.range' (n - k + 1) k) 1 0
  r.2 + binary_logarithm r.1 m

/-- Ghost companion of `kpermLoop`: the list of arguments of the calls to
`binary_logarithm` issued inside the loop (the completed batches). -/
def kpermSplits : List Nat → Nat → List Nat
  | [], _ => []
  | i :: rest, arg =>
    if mulwOverflows arg i then arg :: kpermSplits rest i
    else kpermSplits rest (arg * i)

/-- Ghost companion of `kpermLoop`: the value of `largest_log_arg` after the
loop, i.e. the argument of the final call to `binary_logarithm`. -/
def kpermFinal : List Nat → Nat → Nat
  | [], arg => arg
  | i :: rest, arg =>
    if mulwOverflows arg i then kpermFinal rest i
    else kpermFinal rest (arg * i)

/-- All arguments ever passed to `binary_logarithm` while computing
`k_permutation_logarithm n k m`: the completed batches, then the final
accumulator. -/
def kpermCalls (n k : Nat) : List Nat :=
  kpermSplits (List.range' (n - k + 1) k) 1 ++ [kpermFinal (List.range' (n - k + 1) k) 1]

/-- Modelled from the spec (§4.2): the naive summation the optimized
batched loop must refine, "calling FixedPointLog once per term and summing
the results" over the terms `n - k + 1, …, n`. -/
def naive_k_permutation_logarithm (n k m : Nat) : Nat :=
  ((List.range' (n - k + 1) k).map (fun i => binary_logarithm i m)).sum

/-- The number of ordered k-permutations `n! / (n-k)!`, written as the
product of the loop range of `k_permutation_logarithm`. -/
def nPermutations (n k : Nat) : Nat :=
  (List.range' (n - k + 1) k).prod

/-- Value of `config.LOG_PRECISION`. -/
def LOG_PRECISION : Nat := 16

/-- Value of `config.BINS`: the number of scratch slots used as buckets of
the sparse permutation map. -/
def BINS : Nat := 11

/-- Embedding of the `Commitment` ARC-4 struct.  The 32-byte transaction id
is abstracted as a `Nat`. -/
structure Commitment where
  tx_id : Nat
  round : Nat
  participants : Nat
  winners : Nat
deriving DecidableEq

/-- Assertion failures of the contract, one per message of `errors.py`;
`MISSING_COMMITMENT` is the AVM failure of reading absent local state in
`reveal`.  An error aborts the whole transaction, so the AVM rolls back
every state write of the call. -/
inductive ContractError where
  | SAFE_GAP
  | WINNERS_BOUND
  | PARTICIPANTS_BOUND
  | INPUT_SOUNDNESS
  | SAFE_SIZE
  | ROUND_ELAPSED
  | MISSING_COMMITMENT
deriving DecidableEq

/-- Embedding of the ABI method `commit(delay, participants, winners)`.
`st` is the caller's `self.commitment[Txn.sender]` slot (`none` when the
caller holds no commitment); the globals `safety_gap` (the
`SAFETY_ROUND_GAP` template value), `cur_round` (`Global.round`) and
`tx_id` (`Txn.tx_id`) are passed explicitly.  The inner opup calls only
buy computation budget and carry no state, so they are not modelled.
A returned `Except.error` models the aborted (fully rolled back)
transaction; `Except.ok` carries the caller's new commitment slot. -/
def commit (safety_gap cur_round tx_id : Nat) (delay participants winners : Nat)
    (st : Option Commitment) : Except ContractError (Option Commitment) :=
  if safety_gap ≤ delay then
    if 1 ≤ winners ∧ winners < 35 then
      if 2 ≤ participants then
        if winners ≤ participants then
          if k_permutation_logarithm participants winners LOG_PRECISION
              ≤ 128 <<< LOG_PRECISION then
            Except.ok (some { tx_id := tx_id, round := cur_round + delay,
                              participants := participants, winners := winners })
          else Except.error ContractError.SAFE_SIZE
        else Except.error ContractError.INPUT_SOUNDNESS
      else Except.error ContractError.PARTICIPANTS_BOUND
    else Except.error ContractError.WINNERS_BOUND
  else Except.error ContractError.SAFE_GAP

/-- Embedding of the subroutine `linear_search(bin_list, key)`.  In the
contract a bin is a byte string of packed `(uint32 key, uint32 value)`
pairs scanned 8 bytes at a time; we model it as a list of pairs, so the
returned position counts pairs instead of bytes. -/
def linear_search : List (Nat × Nat) → Nat → Bool × Nat × Nat
  | [], _ => (false, 0, 0)
  | (bk, bv) :: rest, key =>
    if bk = key then (true, 0, bv)
    else
      let r := linear_search rest key
      (r.1, r.2.1 + 1, r.2.2)

/-- Embedding of `op.replace(j_bin, j_pos + 4, value_bytes)`: overwrite the
value of the pair at pair position `pos`. -/
def replaceValue : List (Nat × Nat) → Nat → Nat → List (Nat × Nat)
  | [], _, _ => []
  | (bk, _) :: rest, 0, v => (bk, v) :: rest
  | (bk, bv) :: rest, pos + 1, v => (bk, bv) :: replaceValue rest pos v

/-- State of the shuffle loop of `reveal`: the scratch-space bins (indexed
by bin number, all initialized to empty) holding the sparse permutation
map, and the winners accumulated so far. -/
structure ShuffleState where
  bins : Nat → List (Nat × Nat)
  winners : List Nat

/-- Scratch bins after the `op.Scratch.store(i, Bytes())` reset loop of
`reveal`. -/
def initBins : Nat → List (Nat × Nat) := fun _ => []

/-- One iteration of the Knuth-shuffle loop of `reveal`, for loop index `i`
and drawn index `j`: look up the current values at `i` and `j` (each
defaulting to its own index when absent from the sparse map), append the
value at `j` to the winners, and store the value previously at `i` under
key `j` (replacing the entry of `j` when present, appending it
otherwise). -/
def shuffleStep (st : ShuffleState) (i j : Nat) : ShuffleState :=
  let iRes := linear_search (st.bins (i % BINS)) i
  let iValue := if iRes.1 then iRes.2.2 else i
  let jBin := st.bins (j % BINS)
  let jRes := linear_search jBin j
  let jBin2 := if jRes.1 then replaceValue jBin jRes.2.1 iValue
               else jBin ++ [(j, iValue)]
  { bins := fun b => if b = j % BINS then jBin2 else st.bins b
    winners := st.winners ++ [if jRes.1 then jRes.2.2 else j] }

/-- Value of the `n_shuffles` expression of `reveal`: stop after `winners`
iterations unless `winners == participants`, in which case stop one step
earlier. -/
def n_shuffles (participants winners : Nat) : Nat :=
  if winners < participants then winners else winners - 1

/-- The shuffle loop of `reveal` run for `t` iterations, where the draw of
iteration `i` (the pcg128 output for counter `i`, extracted to 32 bits) is
`draws i`. -/
def shuffleRun (draws : Nat → Nat) (t : Nat) : ShuffleState :=
  (List.range t).foldl (fun st i => shuffleStep st i (draws i)) ⟨initBins, []⟩

/-- The winners list produced by `reveal` for a commitment to
`participants` and `winners`, given the draw sequence: the shuffle loop
runs `n_shuffles` times, and when `participants == winners` the value left
at the last index is read from the sparse map (with the index itself as
default) and appended. -/
def revealWinners (participants winners : Nat) (draws : Nat → Nat) : List Nat :=
  let st := shuffleRun draws (n_shuffles participants winners)
  if participants = winners then
    let key := winners - 1
    let r := linear_search (st.bins (key % BINS)) key
    st.winners ++ [if r.1 then r.2.2 else key]
  else st.winners

/-- Modelled from the spec (§4.3–§4.4): the external `lib_pcg` seed
expander is not part of this repository; per the spec it deterministically
expands the 256-bit beacon output into one bounded draw per counter, the
draw of counter `i` lying in `[i, participants)` (the contract passes
`lower_bound = i`, `upper_bound = participants`).  A draw function is valid
for `n` participants when every draw respects those bounds. -/
def DrawsValid (n : Nat) (draws : Nat → Nat) : Prop :=
  ∀ i, i < n → i ≤ draws i ∧ draws i < n

/-- Embedding of the ABI method `reveal()`.  The source reads and deletes
the caller's commitment, asserts that the committed round has elapsed,
fetches the beacon output and shuffles; an assertion failure aborts and
rolls back the whole transaction (including the deletion), which the
`Except.error` branches model.  On success the new state of the caller's
slot is `none` and the `Reveal` struct `(commitment_tx_id, winners)` is
returned. -/
def reveal (cur_round : Nat) (st : Option Commitment) (draws : Nat → Nat) :
    Except ContractError (Option Commitment × Nat × List Nat) :=
  match st with
  | none => Except.error ContractError.MISSING_COMMITMENT
  | some c =>
    if c.round ≤ cur_round then
      Except.ok (none, c.tx_id, revealWinners c.participants c.winners draws)
    else Except.error ContractError.ROUND_ELAPSED

/-- Current value at abstract index `x` of the lazily-materialized array
shuffled by `reveal`: the stored value when key `x` is present in its bin,
the index `x` itself otherwise ("we assume that at position i lies the
number i"). -/
def lookupDefault (bins : Nat → List (Nat × Nat)) (x : Nat) : Nat :=
  let r := linear_search (bins (x % BINS)) x
  if r.1 then r.2.2 else x

/-- View of `linear_search` as an optional value (first entry with the
given key, if any); used to reason about the sparse map. -/
def lsVal (l : List (Nat × Nat)) (key : Nat) : Option Nat :=
  if (linear_search l key).1 then some (linear_search l key).2.2 else none

/-! ### Basic rewriting lemmas for the AVM bit operations -/

lemma one_shiftLeft_eq (ic : Nat) : (1 : Nat) <<< ic = 2 ^ ic := by
  simp [Nat.shiftLeft_eq]

lemma two_shiftLeft_eq (ic : Nat) : (2 : Nat) <<< ic = 2 ^ (ic + 1) := by
  simp [Nat.shiftLeft_eq, pow_succ, mul_comm]

lemma mul_two_or_one (a : Nat) : (a * 2) ||| 1 = a * 2 + 1 := by
  have h := Nat.mul_add_lt_is_or (i := 1) (b := 1) (by norm_num) a
  simpa [mul_comm] using h.symm

lemma mul_pow_or_eq_add {d m : Nat} (hd : d < 2 ^ m) (a : Nat) :
    (a * 2 ^ m) ||| d = a * 2 ^ m + d := by
  rw [mul_comm a (2 ^ m)]
  exact (Nat.mul_add_lt_is_or hd a).symm

lemma size_one_le {n : Nat} (h : 1 ≤ n) : 1 ≤ Nat.size n :=
  Nat.lt_size.mpr (by simpa using h)


lemma two_pow_size_pred_le {n : Nat} (h : 1 ≤ n) : 2 ^ (Nat.size n - 1) ≤ n := by
  have h1 : Nat.size n - 1 < Nat.size n := by
    have := size_one_le h
    omega
  exact Nat.lt_size.mp h1

lemma lt_two_pow_size_pred {n : Nat} (h : 1 ≤ n) : n < 2 ^ (Nat.size n - 1 + 1) := by
  have h1 : Nat.size n - 1 + 1 = Nat.size n := by
    have := size_one_le h
    omega
  rw [h1]
  exact Nat.lt_size_self n

lemma size_succ_div_two {m : Nat} (h : 1 ≤ m) : Nat.size m = Nat.size (m / 2) + 1 := by
  apply le_antisymm
  · apply Nat.size_le.mpr
    have h1 : m / 2 < 2 ^ Nat.size (m / 2) := Nat.lt_size_self _
    have h3 : (2 : Nat) ^ (Nat.size (m / 2) + 1) = 2 * 2 ^ Nat.size (m / 2) := by ring
    omega
  · have hlt : Nat.size (m / 2) < Nat.size m := by
      apply Nat.lt_size.mpr
      by_cases hm : m / 2 = 0
      · simpa [hm] using h
      · have h1 : 1 ≤ m / 2 := by omega
        have h2 := two_pow_size_pred_le h1
        have h3 : 1 ≤ Nat.size (m / 2) := size_one_le h1
        have h4 : Nat.size (m / 2) = Nat.size (m / 2) - 1 + 1 := by omega
        rw [h4, pow_succ]
        omega
    omega

lemma bitlenAux_eq : ∀ fuel n, n ≤ fuel → bitlenAux fuel n = Nat.size n := by
  intro fuel
  induction fuel with
  | zero =>
    intro n h
    have hn : n = 0 := by omega
    simp [bitlenAux, hn]
  | succ fuel ih =>
    intro n h
    by_cases hn : n = 0
    · simp [bitlenAux, hn]
    · have h2 : n / 2 ≤ fuel := by omega
      rw [show bitlenAux (fuel + 1) n = if n = 0 then 0 else bitlenAux fuel (n / 2) + 1
          from rfl,
        if_neg hn, ih _ h2, ← size_succ_div_two (by omega)]

lemma bitlen_eq_size (n : Nat) : bitlen n = Nat.size n :=
  bitlenAux_eq n n le_rfl

/-! ### Shape and underestimation of `binary_logarithm` -/

lemma blogLoop_succ (ic t fc x : Nat) :
    blogLoop ic (t + 1) fc x =
      if 2 ^ (ic + 1) ≤ x * x / 2 ^ ic then
        blogLoop ic t (fc * 2 + 1) (x * x / 2 ^ ic / 2)
      else blogLoop ic t (fc * 2) (x * x / 2 ^ ic) := by
  show (if 2 <<< ic ≤ x * x / (1 <<< ic) then
      blogLoop ic t ((fc <<< 1) ||| 1) ((x * x / (1 <<< ic)) >>> 1)
    else blogLoop ic t (fc <<< 1) (x * x / (1 <<< ic))) = _
  rw [one_shiftLeft_eq, two_shiftLeft_eq, Nat.shiftLeft_eq, Nat.shiftRight_eq_div_pow]
  norm_num [mul_two_or_one]

/-- Shape of the fractional accumulator: after `t` iterations starting from
`fc`, the accumulator is `fc * 2 ^ t` plus the `t` freshly discovered
bits. -/
lemma blogLoop_fst_shape (ic : Nat) :
    ∀ t fc x, ∃ d, d < 2 ^ t ∧ (blogLoop ic t fc x).1 = fc * 2 ^ t + d := by
  intro t
  induction t with
  | zero => intro fc x; exact ⟨0, by norm_num, by simp [blogLoop]⟩
  | succ t ih =>
    intro fc x
    rw [blogLoop_succ]
    by_cases h : 2 ^ (ic + 1) ≤ x * x / 2 ^ ic
    · obtain ⟨d, hd, hshape⟩ := ih (fc * 2 + 1) (x * x / 2 ^ ic / 2)
      refine ⟨2 ^ t + d, ?_, ?_⟩
      · have : (2 : Nat) ^ (t + 1) = 2 ^ t + 2 ^ t := by ring
        omega
      · rw [if_pos h, hshape, pow_succ]
        ring
    · obtain ⟨d, hd, hshape⟩ := ih (fc * 2) (x * x / 2 ^ ic)
      refine ⟨d, ?_, ?_⟩
      · have : (2 : Nat) ^ t ≤ 2 ^ (t + 1) := Nat.pow_le_pow_right (by norm_num) (by omega)
        omega
      · rw [if_neg h, hshape, pow_succ]
        ring

/-- Main invariant of the fractional loop: the mantissa stays normalized in
`[2 ^ ic, 2 ^ (ic + 1))` and every discovered bit is sound, in the sense
that `2 ^ (result)` never exceeds `x ^ (2 ^ t)` (each floor division only
loses information downward). -/
lemma blogLoop_spec (ic : Nat) :
    ∀ t fc x, 2 ^ ic ≤ x → x < 2 ^ (ic + 1) →
      ∃ d, d < 2 ^ t ∧ (blogLoop ic t fc x).1 = fc * 2 ^ t + d ∧
        2 ^ ic ≤ (blogLoop ic t fc x).2 ∧
        (blogLoop ic t fc x).2 * 2 ^ (ic * (2 ^ t - 1) + d) ≤ x ^ 2 ^ t := by
  intro t
  induction t with
  | zero =>
    intro fc x hlo hhi
    exact ⟨0, by norm_num, by simp [blogLoop], by simpa [blogLoop] using hlo,
      by simp [blogLoop]⟩
  | succ t ih =>
    intro fc x hlo hhi
    have hicpos : (0 : Nat) < 2 ^ ic := Nat.two_pow_pos ic
    have hy_lo : 2 ^ ic ≤ x * x / 2 ^ ic :=
      (Nat.le_div_iff_mul_le hicpos).mpr (Nat.mul_le_mul hlo hlo)
    have hyx : x * x / 2 ^ ic * 2 ^ ic ≤ x * x := Nat.div_mul_le_self _ _
    rw [blogLoop_succ]
    by_cases h : 2 ^ (ic + 1) ≤ x * x / 2 ^ ic
    · -- a `1` bit is emitted and the mantissa is halved
      rw [if_pos h]
      set y := x * x / 2 ^ ic with hy
      have hx2_lo : 2 ^ ic ≤ y / 2 := by
        refine (Nat.le_div_iff_mul_le (by norm_num)).mpr ?_
        calc 2 ^ ic * 2 = 2 ^ (ic + 1) := by ring
        _ ≤ y := h
      have hx2_hi : y / 2 < 2 ^ (ic + 1) := by
        refine (Nat.div_lt_iff_lt_mul (by norm_num)).mpr ?_
        have hylt : y < 2 ^ (ic + 2) := by
          refine (Nat.div_lt_iff_lt_mul hicpos).mpr ?_
          calc x * x < 2 ^ (ic + 1) * 2 ^ (ic + 1) :=
                Nat.mul_lt_mul_of_lt_of_lt hhi hhi
          _ = 2 ^ (ic + 2) * 2 ^ ic := by ring
        calc y < 2 ^ (ic + 2) := hylt
        _ = 2 ^ (ic + 1) * 2 := by ring
      have hkey : y / 2 * 2 ^ (ic + 1) ≤ x * x := by
        have h2 : y / 2 * 2 ≤ y := Nat.div_mul_le_self y 2
        calc y / 2 * 2 ^ (ic + 1) = y / 2 * 2 * 2 ^ ic := by ring
        _ ≤ y * 2 ^ ic := Nat.mul_le_mul_right _ h2
        _ ≤ x * x := hyx
      obtain ⟨d, hd, hshape, hmlo, hineq⟩ := ih (fc * 2 + 1) (y / 2) hx2_lo hx2_hi
      refine ⟨2 ^ t + d, ?_, ?_, hmlo, ?_⟩
      · have hp : (2 : Nat) ^ (t + 1) = 2 ^ t + 2 ^ t := by ring
        omega
      · rw [hshape, pow_succ]
        ring
      · have hexp : ic * (2 ^ (t + 1) - 1) + (2 ^ t + d) =
            (ic + 1) * 2 ^ t + (ic * (2 ^ t - 1) + d) := by
          have h1 : (1 : Nat) ≤ 2 ^ t := Nat.one_le_two_pow
          have h2 : (2 : Nat) ^ (t + 1) - 1 = (2 ^ t - 1) + 2 ^ t := by
            have hp : (2 : Nat) ^ (t + 1) = 2 ^ t + 2 ^ t := by ring
            omega
          rw [h2, Nat.mul_add]
          ring
        rw [hexp, pow_add, pow_mul]
        calc (blogLoop ic t (fc * 2 + 1) (y / 2)).2 *
              ((2 ^ (ic + 1)) ^ 2 ^ t * 2 ^ (ic * (2 ^ t - 1) + d))
            = ((blogLoop ic t (fc * 2 + 1) (y / 2)).2 * 2 ^ (ic * (2 ^ t - 1) + d)) *
              (2 ^ (ic + 1)) ^ 2 ^ t := by ring
        _ ≤ (y / 2) ^ 2 ^ t * (2 ^ (ic + 1)) ^ 2 ^ t :=
            Nat.mul_le_mul_right _ hineq
        _ = (y / 2 * 2 ^ (ic + 1)) ^ 2 ^ t := (mul_pow _ _ _).symm
        _ ≤ (x * x) ^ 2 ^ t := Nat.pow_le_pow_left hkey _
        _ = x ^ 2 ^ (t + 1) := by
            rw [← pow_two, ← pow_mul, pow_succ, mul_comm 2 (2 ^ t)]
    · -- a `0` bit is emitted
      rw [if_neg h]
      set y := x * x / 2 ^ ic with hy
      have hx2_hi : y < 2 ^ (ic + 1) := lt_of_not_ge h
      obtain ⟨d, hd, hshape, hmlo, hineq⟩ := ih (fc * 2) y hy_lo hx2_hi
      refine ⟨d, ?_, ?_, hmlo, ?_⟩
      · have hp : (2 : Nat) ^ t ≤ 2 ^ (t + 1) :=
          Nat.pow_le_pow_right (by norm_num) (by omega)
        omega
      · rw [hshape, pow_succ]
        ring
      · have hexp : ic * (2 ^ (t + 1) - 1) + d =
            ic * 2 ^ t + (ic * (2 ^ t - 1) + d) := by
          have h1 : (1 : Nat) ≤ 2 ^ t := Nat.one_le_two_pow
          have h2 : (2 : Nat) ^ (t + 1) - 1 = (2 ^ t - 1) + 2 ^ t := by
            have hp : (2 : Nat) ^ (t + 1) = 2 ^ t + 2 ^ t := by ring
            omega
          rw [h2, Nat.mul_add]
          ring
        rw [hexp, pow_add, pow_mul]
        calc (blogLoop ic t (fc * 2) y).2 *
              ((2 ^ ic) ^ 2 ^ t * 2 ^ (ic * (2 ^ t - 1) + d))
            = ((blogLoop ic t (fc * 2) y).2 * 2 ^ (ic * (2 ^ t - 1) + d)) *
              (2 ^ ic) ^ 2 ^ t := by ring
        _ ≤ y ^ 2 ^ t * (2 ^ ic) ^ 2 ^ t := Nat.mul_le_mul_right _ hineq
        _ = (y * 2 ^ ic) ^ 2 ^ t := (mul_pow _ _ _).symm
        _ ≤ (x * x) ^ 2 ^ t := Nat.pow_le_pow_left hyx _
        _ = x ^ 2 ^ (t + 1) := by
            rw [← pow_two, ← pow_mul, pow_succ, mul_comm 2 (2 ^ t)]

/-- The result of `binary_logarithm n m` decomposes as
`(integer part) * 2 ^ m + (fractional bits)`. -/
lemma binary_logarithm_shape (n m : Nat) :
    ∃ d, d < 2 ^ m ∧ binary_logarithm n m = (Nat.size n - 1) * 2 ^ m + d := by
  unfold binary_logarithm
  rw [bitlen_eq_size]
  by_cases h : n = 1 <<< (Nat.size n - 1)
  · exact ⟨0, Nat.two_pow_pos m, by rw [if_pos h, Nat.shiftLeft_eq]; omega⟩
  · obtain ⟨d, hd, hshape⟩ := blogLoop_fst_shape (Nat.size n - 1) m 0 n
    refine ⟨d, hd, ?_⟩
    rw [if_neg h, hshape, Nat.shiftLeft_eq]
    simpa using mul_pow_or_eq_add hd (Nat.size n - 1)

/-- The integer part alone is a lower bound on `binary_logarithm`. -/
lemma binary_logarithm_ge (n m : Nat) :
    (Nat.size n - 1) * 2 ^ m ≤ binary_logarithm n m := by
  obtain ⟨d, _, h⟩ := binary_logarithm_shape n m
  omega

/-- Underestimation: `binary_logarithm n m`, read as a fixed-point number
with scaling factor `2 ^ m`, never exceeds `log2 n`; equivalently
`2 ^ result ≤ n ^ (2 ^ m)`. -/
lemma binary_logarithm_le (n m : Nat) (h : 1 ≤ n) :
    2 ^ binary_logarithm n m ≤ n ^ 2 ^ m := by
  have hlo := two_pow_size_pred_le h
  have hhi := lt_two_pow_size_pred h
  unfold binary_logarithm
  rw [bitlen_eq_size]
  by_cases hpow : n = 1 <<< (Nat.size n - 1)
  · rw [if_pos hpow, Nat.shiftLeft_eq]
    calc 2 ^ ((Nat.size n - 1) * 2 ^ m)
        = (2 ^ (Nat.size n - 1)) ^ 2 ^ m := by rw [← pow_mul]
    _ ≤ n ^ 2 ^ m := Nat.pow_le_pow_left hlo _
  · rw [if_neg hpow]
    obtain ⟨d, hd, hshape, hmlo, hineq⟩ :=
      blogLoop_spec (Nat.size n - 1) m 0 n hlo hhi
    set ic := Nat.size n - 1
    have hres : (ic <<< m) ||| (blogLoop ic m 0 n).1 = ic * 2 ^ m + d := by
      rw [hshape, Nat.shiftLeft_eq]
      simpa using mul_pow_or_eq_add hd ic
    rw [hres]
    have hexp : ic * 2 ^ m + d = ic + (ic * (2 ^ m - 1) + d) := by
      have h1 : (1 : Nat) ≤ 2 ^ m := Nat.one_le_two_pow
      have h2 : (2 : Nat) ^ m - 1 + 1 = 2 ^ m := by omega
      calc ic * 2 ^ m + d = ic * (2 ^ m - 1 + 1) + d := by rw [h2]
      _ = ic + (ic * (2 ^ m - 1) + d) := by ring
    rw [hexp, pow_add]
    calc 2 ^ ic * 2 ^ (ic * (2 ^ m - 1) + d)
        ≤ (blogLoop ic m 0 n).2 * 2 ^ (ic * (2 ^ m - 1) + d) :=
          Nat.mul_le_mul_right _ hmlo
    _ ≤ n ^ 2 ^ m := hineq

/-! ### Claim C8: exactness on powers of two -/

/-- C8: for every n ≥ 2 that is a perfect power of two (n = 2^i, here with
1 ≤ i, and i ≤ 63 so that n is a `UInt64`) and every supported precision
m ≤ 16, `binary_logarithm(n, m)` equals the exact integer logarithm
shifted by the fractional precision, `i <<< m`, with zero error. -/
theorem binary_logarithm_exact_on_pow2 (i m : Nat) (hi : 1 ≤ i) (hi63 : i ≤ 63)
    (hm : m ≤ 16) : binary_logarithm (2 ^ i) m = i <<< m := by
  unfold binary_logarithm
  rw [bitlen_eq_size]
  have hsize : Nat.size ((2 : Nat) ^ i) = i + 1 := Nat.size_pow
  rw [hsize]
  simp [Nat.shiftLeft_eq]

/-- Witness for C8 at i = 5, m = 16. -/
theorem binary_logarithm_exact_on_pow2_witness :
    1 ≤ 5 ∧ 5 ≤ 63 ∧ 16 ≤ 16 ∧ binary_logarithm (2 ^ 5) 16 = 5 <<< 16 :=
  ⟨by norm_num, by norm_num, le_refl 16,
    binary_logarithm_exact_on_pow2 5 16 (by norm_num) (by norm_num) (le_refl 16)⟩

/-! ### Claim C2: the result is an underestimate, not an overestimate -/

/-- C2, counterexample: at n = 3, m = 16 the claimed overestimation fails:
the result of `binary_logarithm`, read as a fixed-point number scaled by
`2 ^ 16`, is strictly below `log2 3 · 2 ^ 16`, i.e.
`2 ^ result < 3 ^ (2 ^ 16)`.  (The computed value is `98304`, while
`⌊log2 3 · 2 ^ 16⌋ = 103877`; no forcing of the least-significant bit to 1
appears in the code.) -/
theorem binary_logarithm_not_overestimate :
    2 ^ binary_logarithm 3 16 < 3 ^ 2 ^ 16 := by
  have h : binary_logarithm 3 16 = 98304 := by decide
  rw [h]
  have h1 : (2 : Nat) ^ 98304 = 8 ^ 32768 := by
    rw [show (8 : Nat) = 2 ^ 3 from rfl, ← pow_mul]
  have h2 : (3 : Nat) ^ 2 ^ 16 = 9 ^ 32768 := by
    rw [show (9 : Nat) = 3 ^ 2 from rfl, ← pow_mul]
    norm_num
  rw [h1, h2]
  exact Nat.pow_lt_pow_left (by norm_num) (by norm_num)

/-- C2, amended: for every n ≥ 1 and supported precision m ≤ 16,
`binary_logarithm(n, m)` is an underestimate, never an overestimate, of
`log2(n) · 2 ^ m` (no rounding up of the least-significant bit occurs):
`2 ^ result ≤ n ^ (2 ^ m)`. -/
theorem binary_logarithm_underestimates (n m : Nat) (h : 1 ≤ n) (hm : m ≤ 16) :
    2 ^ binary_logarithm n m ≤ n ^ 2 ^ m :=
  binary_logarithm_le n m h

/-- Witness for the amended C2 at n = 3, m = 16. -/
theorem binary_logarithm_underestimates_witness :
    1 ≤ 3 ∧ 16 ≤ 16 ∧ 2 ^ binary_logarithm 3 16 ≤ 3 ^ 2 ^ 16 :=
  ⟨by norm_num, le_refl 16,
    binary_logarithm_underestimates 3 16 (by norm_num) (le_refl 16)⟩

/-! ### The batching loop of `k_permutation_logarithm` -/

lemma mulwOverflows_iff (a i : Nat) : mulwOverflows a i = true ↔ 2 ^ 63 ≤ a * i := by
  unfold mulwOverflows mulw
  simp only [Bool.or_eq_true, decide_eq_true_eq, bitlen_eq_size]
  constructor
  · rintro (h | h)
    · have h1 : 2 ^ 64 ≤ a * i := by
        by_contra hc
        exact h (Nat.div_eq_of_lt (by omega))
      have h2 : (2 : Nat) ^ 64 = 2 ^ 63 * 2 := by ring
      omega
    · have h1 : 2 ^ 63 ≤ a * i % 2 ^ 64 := Nat.lt_size.mp (by omega)
      have h2 : a * i % 2 ^ 64 ≤ a * i := Nat.mod_le _ _
      omega
  · intro h
    by_cases h64 : a * i < 2 ^ 64
    · right
      have hmod : a * i % 2 ^ 64 = a * i := Nat.mod_eq_of_lt h64
      have hge : 63 < Nat.size (a * i) := Nat.lt_size.mpr h
      have hle : Nat.size (a * i) ≤ 64 := Nat.size_le.mpr h64
      rw [hmod]
      omega
    · left
      have h1 : 2 ^ 64 ≤ a * i := by omega
      have h2 : 1 ≤ a * i / 2 ^ 64 := (Nat.le_div_iff_mul_le (Nat.two_pow_pos 64)).mpr
        (by omega)
      omega

/-- Gluing lemma: the summation computed by the source loop equals the sum
of `binary_logarithm` over the completed batches plus the final call. -/
lemma kpermLoop_eq (m : Nat) : ∀ (L : List Nat) (arg s : Nat),
    (kpermLoop m L arg s).2 + binary_logarithm (kpermLoop m L arg s).1 m =
      s + (((kpermSplits L arg).map (fun c => binary_logarithm c m)).sum
        + binary_logarithm (kpermFinal L arg) m) := by
  intro L
  induction L with
  | nil => intro arg s; simp [kpermLoop, kpermSplits, kpermFinal]
  | cons i rest ih =>
    intro arg s
    by_cases h : mulwOverflows arg i
    · simp only [kpermLoop, kpermSplits, kpermFinal, if_pos h]
      rw [ih]
      simp only [List.map_cons, List.sum_cons]
      ring
    · simp only [kpermLoop, kpermSplits, kpermFinal, if_neg h]
      exact ih (arg * i) s

/-- `k_permutation_logarithm` is the sum of `binary_logarithm` over its
call list. -/
lemma kperm_eq_sum_calls (n k m : Nat) :
    k_permutation_logarithm n k m =
      ((kpermCalls n k).map (fun c => binary_logarithm c m)).sum := by
  unfold k_permutation_logarithm kpermCalls
  have h := kpermLoop_eq m (List.range' (n - k + 1) k) 1 0
  simp only [List.map_append, List.sum_append, List.map_cons, List.sum_cons,
    List.map_nil, List.sum_nil] at h ⊢
  omega

lemma kpermSplits_pos : ∀ (L : List Nat) (arg : Nat), (∀ i ∈ L, 1 ≤ i) → 1 ≤ arg →
    ∀ c ∈ kpermSplits L arg, 1 ≤ c := by
  intro L
  induction L with
  | nil => intro arg _ _ c hc; simp [kpermSplits] at hc
  | cons i rest ih =>
    intro arg hL harg c hc
    have hi : 1 ≤ i := hL i (by simp)
    have hrest : ∀ j ∈ rest, 1 ≤ j := fun j hj => hL j (by simp [hj])
    by_cases h : mulwOverflows arg i
    · simp only [kpermSplits, if_pos h, List.mem_cons] at hc
      rcases hc with rfl | hc
      · exact harg
      · exact ih i hrest hi c hc
    · simp only [kpermSplits, if_neg h] at hc
      exact ih (arg * i) hrest (Nat.one_le_iff_ne_zero.mpr (by positivity)) c hc

lemma kpermFinal_pos : ∀ (L : List Nat) (arg : Nat), (∀ i ∈ L, 1 ≤ i) → 1 ≤ arg →
    1 ≤ kpermFinal L arg := by
  intro L
  induction L with
  | nil => intro arg _ harg; simpa [kpermFinal] using harg
  | cons i rest ih =>
    intro arg hL harg
    have hi : 1 ≤ i := hL i (by simp)
    have hrest : ∀ j ∈ rest, 1 ≤ j := fun j hj => hL j (by simp [hj])
    by_cases h : mulwOverflows arg i
    · simpa only [kpermFinal, if_pos h] using ih i hrest hi
    · simpa only [kpermFinal, if_neg h] using
        ih (arg * i) hrest (Nat.one_le_iff_ne_zero.mpr (by positivity))

/-- The product of all call arguments is the product of the loop range
times the initial accumulator. -/
lemma kpermSplits_prod : ∀ (L : List Nat) (arg : Nat),
    (kpermSplits L arg).prod * kpermFinal L arg = arg * L.prod := by
  intro L
  induction L with
  | nil => intro arg; simp [kpermSplits, kpermFinal]
  | cons i rest ih =>
    intro arg
    by_cases h : mulwOverflows arg i
    · simp only [kpermSplits, kpermFinal, if_pos h, List.prod_cons]
      rw [mul_assoc, ih i]
    · simp only [kpermSplits, kpermFinal, if_neg h, List.prod_cons]
      rw [ih (arg * i)]
      ring

/-- Every completed batch was closed because multiplying by some further
term of the range would reach `2 ^ 63`; with all terms bounded by `n` that
gives `2 ^ 63 ≤ c * n`. -/
lemma kpermSplits_large (n : Nat) : ∀ (L : List Nat) (arg : Nat), (∀ i ∈ L, i ≤ n) →
    ∀ c ∈ kpermSplits L arg, 2 ^ 63 ≤ c * n := by
  intro L
  induction L with
  | nil => intro arg _ c hc; simp [kpermSplits] at hc
  | cons i rest ih =>
    intro arg hL c hc
    have hi : i ≤ n := hL i (by simp)
    have hrest : ∀ j ∈ rest, j ≤ n := fun j hj => hL j (by simp [hj])
    by_cases h : mulwOverflows arg i
    · simp only [kpermSplits, if_pos h, List.mem_cons] at hc
      rcases hc with rfl | hc
      · calc 2 ^ 63 ≤ c * i := (mulwOverflows_iff c i).mp h
        _ ≤ c * n := Nat.mul_le_mul_left _ hi
      · exact ih i hrest c hc
    · simp only [kpermSplits, if_neg h] at hc
      exact ih (arg * i) hrest c hc

lemma kpermSplits_length : ∀ (L : List Nat) (arg : Nat),
    (kpermSplits L arg).length ≤ L.length := by
  intro L
  induction L with
  | nil => intro arg; simp [kpermSplits]
  | cons i rest ih =>
    intro arg
    by_cases h : mulwOverflows arg i
    · simp only [kpermSplits, if_pos h, List.length_cons]
      exact Nat.succ_le_succ (ih i)
    · simp only [kpermSplits, if_neg h, List.length_cons]
      exact (ih (arg * i)).trans (by omega)

lemma mem_range_le {n k x : Nat} (hkn : k ≤ n)
    (hx : x ∈ List.range' (n - k + 1) k) : x ≤ n := by
  rw [List.mem_range'] at hx
  obtain ⟨j, hj, rfl⟩ := hx
  omega

lemma mem_range_pos {n k x : Nat} (hx : x ∈ List.range' (n - k + 1) k) : 1 ≤ x := by
  rw [List.mem_range'] at hx
  obtain ⟨j, hj, rfl⟩ := hx
  omega

lemma mem_range_ge {s c x : Nat} (hx : x ∈ List.range' s c) : s ≤ x := by
  rw [List.mem_range'] at hx
  obtain ⟨j, hj, rfl⟩ := hx
  omega

/-! ### The winners-bound check is subsumed by the entropy check -/

lemma size_mul_le (a b : Nat) : Nat.size (a * b) ≤ Nat.size a + Nat.size b := by
  apply Nat.size_le.mpr
  have ha : a < 2 ^ Nat.size a := Nat.lt_size_self a
  have hb : b < 2 ^ Nat.size b := Nat.lt_size_self b
  calc a * b < 2 ^ Nat.size a * 2 ^ Nat.size b := Nat.mul_lt_mul_of_lt_of_lt ha hb
  _ = 2 ^ (Nat.size a + Nat.size b) := (pow_add 2 _ _).symm

lemma size_prod_le_sum : ∀ (L : List Nat), L ≠ [] →
    Nat.size L.prod ≤ (L.map Nat.size).sum := by
  intro L
  induction L with
  | nil => intro h; exact absurd rfl h
  | cons a L ih =>
    intro _
    match L with
    | [] => simp
    | b :: L2 =>
      rw [List.prod_cons, List.map_cons, List.sum_cons]
      calc Nat.size (a * (b :: L2).prod)
          ≤ Nat.size a + Nat.size (b :: L2).prod := size_mul_le _ _
      _ ≤ Nat.size a + ((b :: L2).map Nat.size).sum :=
          Nat.add_le_add_left (ih (by simp)) _

lemma sum_pred_add_length_ge (f : Nat → Nat) :
    ∀ L : List Nat, (L.map f).sum ≤ (L.map (fun c => f c - 1)).sum + L.length := by
  intro L
  induction L with
  | nil => simp
  | cons a L ih =>
    simp only [List.map_cons, List.sum_cons, List.length_cons]
    omega

lemma length_mul_le_sum (f : Nat → Nat) (a : Nat) :
    ∀ L : List Nat, (∀ x ∈ L, a ≤ f x) → L.length * a ≤ (L.map f).sum := by
  intro L
  induction L with
  | nil => simp
  | cons b L ih =>
    intro h
    simp only [List.map_cons, List.sum_cons, List.length_cons]
    have h1 : a ≤ f b := h b (by simp)
    have h2 := ih fun x hx => h x (by simp [hx])
    calc (L.length + 1) * a = a + L.length * a := by ring
    _ ≤ f b + (L.map f).sum := Nat.add_le_add h1 h2

lemma pow_length_le_prod (a : Nat) :
    ∀ L : List Nat, (∀ x ∈ L, a ≤ x) → a ^ L.length ≤ L.prod := by
  intro L
  induction L with
  | nil => simp
  | cons b L ih =>
    intro h
    rw [List.prod_cons, List.length_cons, pow_succ, mul_comm (a ^ L.length) a]
    exact Nat.mul_le_mul (h b (by simp)) (ih fun x hx => h x (by simp [hx]))

lemma one_le_prod : ∀ L : List Nat, (∀ x ∈ L, 1 ≤ x) → 1 ≤ L.prod := by
  intro L h
  simpa using pow_length_le_prod 1 L h

lemma prod_range'_mono_start : ∀ (c s1 s2 : Nat), s1 ≤ s2 →
    (List.range' s1 c).prod ≤ (List.range' s2 c).prod := by
  intro c
  induction c with
  | zero => intro s1 s2 _; simp
  | succ c ih =>
    intro s1 s2 h
    rw [List.range'_succ, List.range'_succ, List.prod_cons, List.prod_cons]
    exact Nat.mul_le_mul h (ih (s1 + 1) (s2 + 1) (by omega))

lemma range'_factorial_35_lt : 2 ^ 132 < (List.range' 1 35).prod := by decide

/-- The product of the `k_permutation_logarithm` loop range dominates `35!`
once `35 ≤ k ≤ n`. -/
lemma nPermutations_ge_35 {n k : Nat} (hk35 : 35 ≤ k) (hkn : k ≤ n) :
    2 ^ 132 < nPermutations n k := by
  have hsplit : List.range' (n - k + 1) (k - 35) ++ List.range' (n - 34) 35 =
      List.range' (n - k + 1) k := by
    have h := List.range'_append_1 (n - k + 1) (k - 35) 35
    have h1 : n - k + 1 + (k - 35) = n - 34 := by omega
    have h2 : 35 + (k - 35) = k := by omega
    rw [h1, h2] at h
    exact h
  unfold nPermutations
  rw [← hsplit, List.prod_append]
  have hpos : 1 ≤ (List.range' (n - k + 1) (k - 35)).prod :=
    one_le_prod _ fun x hx => by have := mem_range_ge hx; omega
  have h35 : (List.range' 1 35).prod ≤ (List.range' (n - 34) 35).prod :=
    prod_range'_mono_start 35 1 (n - 34) (by omega)
  calc 2 ^ 132 < (List.range' 1 35).prod := range'_factorial_35_lt
  _ ≤ (List.range' (n - 34) 35).prod := h35
  _ ≤ (List.range' (n - k + 1) (k - 35)).prod * (List.range' (n - 34) 35).prod :=
      Nat.le_mul_of_pos_left _ hpos

/-- Core of the subsumption argument: once `35 ≤ k` (and the parameters fit
their ARC-4 widths), the batched entropy estimate exceeds the safety bound
`128 · 2 ^ m`: the completed batches are large because they only close on
crossing `2 ^ 63`, so even their integer parts already sum past 128 bits. -/
lemma kperm_exceeds_of_35_le (n k m : Nat) (hk35 : 35 ≤ k) (hkn : k ≤ n)
    (hk255 : k ≤ 255) (hn32 : n < 2 ^ 32) :
    128 * 2 ^ m < k_permutation_logarithm n k m := by
  set L := List.range' (n - k + 1) k with hL
  set C := kpermCalls n k with hC
  have hLpos : ∀ x ∈ L, 1 ≤ x := fun x hx => mem_range_pos hx
  have hLle : ∀ x ∈ L, x ≤ n := fun x hx => mem_range_le hkn hx
  have hCpos : ∀ c ∈ C, 1 ≤ c := by
    intro c hc
    rw [hC] at hc
    unfold kpermCalls at hc
    rcases List.mem_append.mp hc with hc | hc
    · exact kpermSplits_pos L 1 hLpos le_rfl c hc
    · have hc' : c = kpermFinal L 1 := by simpa using hc
      rw [hc']
      exact kpermFinal_pos L 1 hLpos le_rfl
  have hCne : C ≠ [] := by
    rw [hC]
    unfold kpermCalls
    simp
  have hCprod : C.prod = nPermutations n k := by
    rw [hC]
    unfold kpermCalls nPermutations
    rw [List.prod_append, List.prod_cons, List.prod_nil, mul_one]
    rw [kpermSplits_prod L 1, one_mul]
  have hlen : C.length ≤ k + 1 := by
    rw [hC]
    unfold kpermCalls
    rw [List.length_append, ← hL]
    have := kpermSplits_length L 1
    simp only [List.length_cons, List.length_nil]
    have hLlen : L.length = k := List.length_range' _ _ _
    omega
  -- the sum of the (integer parts − 1) of all calls is at least 129
  have hSS : 129 ≤ (C.map (fun c => Nat.size c - 1)).sum := by
    by_cases hr : C.length ≤ 4
    · -- few calls: the full product has at least 133 binary digits
      have hsz : 133 ≤ Nat.size C.prod := by
        apply Nat.lt_size.mpr
        rw [hCprod]
        have := nPermutations_ge_35 hk35 hkn
        omega
      have h1 := size_prod_le_sum C hCne
      have h2 := sum_pred_add_length_ge Nat.size C
      omega
    · by_cases hn30 : Nat.size n ≤ 30
      · -- many completed batches, small n: every completed batch carries
        -- at least 33 bits past its leading one
        have hsplit_bound : ∀ c ∈ kpermSplits L 1, 34 ≤ Nat.size c := by
          intro c hc
          have hlarge := kpermSplits_large n L 1 hLle c hc
          apply Nat.lt_size.mpr
          have hnlt : n < 2 ^ 30 := lt_of_lt_of_le (Nat.lt_size_self n)
            (Nat.pow_le_pow_right (by norm_num) hn30)
          by_contra hcon
          have hclt : c < 2 ^ 33 := by omega
          have : c * n < 2 ^ 33 * 2 ^ 30 := Nat.mul_lt_mul_of_lt_of_lt hclt hnlt
          have h63 : (2 : Nat) ^ 33 * 2 ^ 30 = 2 ^ 63 := by norm_num
          omega
        have hlen5 : 4 ≤ (kpermSplits L 1).length := by
          rw [hC] at hr
          unfold kpermCalls at hr
          rw [List.length_append, ← hL] at hr
          simp only [List.length_cons, List.length_nil] at hr
          omega
        have hsum : (kpermSplits L 1).length * 33 ≤
            ((kpermSplits L 1).map (fun c => Nat.size c - 1)).sum := by
          apply length_mul_le_sum
          intro x hx
          have := hsplit_bound x hx
          omega
        have hCsum : ((kpermSplits L 1).map (fun c => Nat.size c - 1)).sum ≤
            (C.map (fun c => Nat.size c - 1)).sum := by
          rw [hC]
          unfold kpermCalls
          rw [List.map_append, List.sum_append, ← hL]
          omega
        have h132 : 132 ≤ (kpermSplits L 1).length * 33 :=
          le_trans (by omega) (Nat.mul_le_mul_right 33 hlen5)
        omega
      · -- large n: every term carries at least 29 bits
        have hn29 : 2 ^ 30 ≤ n := Nat.lt_size.mp (by omega)
        have hterm : ∀ x ∈ L, 2 ^ 29 ≤ x := by
          intro x hx
          have := mem_range_ge hx
          rw [hL] at hx
          have h1 : n - k + 1 ≤ x := mem_range_ge hx
          have h2 : (2 : Nat) ^ 30 = 2 ^ 29 * 2 := by ring
          omega
        have hP : (2 ^ 29 : Nat) ^ k ≤ L.prod := by
          have := pow_length_le_prod (2 ^ 29) L hterm
          have hLlen : L.length = k := List.length_range' _ _ _
          rwa [hLlen] at this
        have hsz : 29 * k + 1 ≤ Nat.size C.prod := by
          apply Nat.lt_size.mpr
          rw [hCprod]
          unfold nPermutations
          rw [← hL]
          calc (2 : Nat) ^ (29 * k) = (2 ^ 29) ^ k := by rw [pow_mul]
          _ ≤ L.prod := hP
        have h1 := size_prod_le_sum C hCne
        have h2 := sum_pred_add_length_ge Nat.size C
        have h3 : 29 * k + 1 ≥ 29 * 35 + 1 := by omega
        omega
  -- conclude: each call contributes at least its integer part times 2 ^ m
  have hsum_ge : ((C.map (fun c => Nat.size c - 1)).sum) * 2 ^ m ≤
      k_permutation_logarithm n k m := by
    rw [kperm_eq_sum_calls n k m, ← hC]
    have hpt : ∀ c ∈ C, (Nat.size c - 1) * 2 ^ m ≤ binary_logarithm c m :=
      fun c _ => binary_logarithm_ge c m
    calc ((C.map (fun c => Nat.size c - 1)).sum) * 2 ^ m
        = (C.map (fun c => (Nat.size c - 1) * 2 ^ m)).sum := by
          rw [← List.sum_map_mul_right]
    _ ≤ (C.map (fun c => binary_logarithm c m)).sum := List.sum_le_sum hpt
  have hfin : 129 * 2 ^ m ≤ k_permutation_logarithm n k m :=
    le_trans (Nat.mul_le_mul_right _ hSS) hsum_ge
  have hm : (0 : Nat) < 2 ^ m := Nat.two_pow_pos m
  omega

lemma kpermCalls_prod (n k : Nat) : (kpermCalls n k).prod = nPermutations n k := by
  unfold kpermCalls nPermutations
  rw [List.prod_append, List.prod_cons, List.prod_nil, mul_one,
    kpermSplits_prod, one_mul]

lemma kpermCalls_pos (n k : Nat) : ∀ c ∈ kpermCalls n k, 1 ≤ c := by
  intro c hc
  unfold kpermCalls at hc
  rcases List.mem_append.mp hc with hc | hc
  · exact kpermSplits_pos _ 1 (fun x hx => mem_range_pos hx) le_rfl c hc
  · have hc2 : c = kpermFinal (List.range' (n - k + 1) k) 1 := by simpa using hc
    rw [hc2]
    exact kpermFinal_pos _ 1 (fun x hx => mem_range_pos hx) le_rfl

/-! ### Claim C10: `binary_logarithm` is never called with argument 0 -/

/-- C10: under commit's checked preconditions `2 ≤ n`, `1 ≤ k ≤ n`, the
summation of `k_permutation_logarithm` is the sum of `binary_logarithm`
over its call arguments (the completed batches and the final accumulator
`largest_log_arg`), and every such argument is at least 1, so
`op.bitlen(n)` is at least 1 at every call and the expression
`op.bitlen(n) - 1` never underflows. -/
theorem kperm_never_calls_blog_with_zero (n k : Nat) (hn : 2 ≤ n) (hk1 : 1 ≤ k)
    (hkn : k ≤ n) :
    k_permutation_logarithm n k LOG_PRECISION =
      ((kpermCalls n k).map fun c => binary_logarithm c LOG_PRECISION).sum ∧
    ∀ c ∈ kpermCalls n k, 1 ≤ c ∧ 1 ≤ bitlen c := by
  refine ⟨kperm_eq_sum_calls n k _, ?_⟩
  intro c hc
  have h1 : 1 ≤ c := kpermCalls_pos n k c hc
  exact ⟨h1, by rw [bitlen_eq_size]; exact size_one_le h1⟩

/-- Witness for C10 at n = 35, k = 35 (a run with three calls). -/
theorem kperm_never_calls_blog_with_zero_witness :
    k_permutation_logarithm 35 35 LOG_PRECISION =
      ((kpermCalls 35 35).map fun c => binary_logarithm c LOG_PRECISION).sum ∧
    ∀ c ∈ kpermCalls 35 35, 1 ≤ c ∧ 1 ≤ bitlen c :=
  kperm_never_calls_blog_with_zero 35 35 (by norm_num) (by norm_num) (le_refl 35)

/-! ### Claim C5: the batched sum is a lower bound, like the naive sum -/

lemma two_pow_sum_blog_le (m : Nat) : ∀ L : List Nat, (∀ x ∈ L, 1 ≤ x) →
    2 ^ ((L.map fun c => binary_logarithm c m).sum) ≤ L.prod ^ 2 ^ m := by
  intro L
  induction L with
  | nil => simp
  | cons a L ih =>
    intro h
    rw [List.map_cons, List.sum_cons, List.prod_cons, pow_add, mul_pow]
    exact Nat.mul_le_mul (binary_logarithm_le a m (h a (by simp)))
      (ih fun x hx => h x (by simp [hx]))

/-- C5, counterexample: at n = 3, k = 2, m = 16 the batched computation is
not an upper bound on `log2(n!/(n−k)!) · 2 ^ m`: reading the result as a
fixed-point number, `2 ^ result < (3!/1!) ^ (2 ^ 16)`, i.e. the computed
value (163840) undershoots `log2 6 · 2 ^ 16 = 169408.26…`. -/
theorem k_permutation_logarithm_not_upper_bound :
    2 ^ k_permutation_logarithm 3 2 16 < nPermutations 3 2 ^ 2 ^ 16 := by
  have h : k_permutation_logarithm 3 2 16 = 163840 := by decide
  have hP : nPermutations 3 2 = 6 := by decide
  rw [h, hP]
  have h1 : (2 : Nat) ^ 163840 = 32 ^ 32768 := by
    rw [show (32 : Nat) = 2 ^ 5 from rfl, ← pow_mul]
  have h2 : (6 : Nat) ^ 2 ^ 16 = 36 ^ 32768 := by
    rw [show (36 : Nat) = 6 ^ 2 from rfl, ← pow_mul]
    norm_num
  rw [h1, h2]
  exact Nat.pow_lt_pow_left (by norm_num) (by norm_num)

/-- C5, amended: for all valid `n`, `k` and supported precision `m ≤ 16`,
the batched computation of `k_permutation_logarithm` preserves the same
bound property as the naive computation that calls `binary_logarithm` once
per term and sums: both are lower bounds (underestimates, never
overestimates) of `log2(n!/(n−k)!)` scaled by `2 ^ m`. -/
theorem batched_and_naive_are_lower_bounds (n k m : Nat) (hk1 : 1 ≤ k)
    (hkn : k ≤ n) (hm : m ≤ 16) :
    2 ^ k_permutation_logarithm n k m ≤ nPermutations n k ^ 2 ^ m ∧
    2 ^ naive_k_permutation_logarithm n k m ≤ nPermutations n k ^ 2 ^ m := by
  constructor
  · rw [kperm_eq_sum_calls n k m, ← kpermCalls_prod n k]
    exact two_pow_sum_blog_le m _ (kpermCalls_pos n k)
  · unfold naive_k_permutation_logarithm nPermutations
    exact two_pow_sum_blog_le m _ fun x hx => mem_range_pos hx

/-- Witness for the amended C5 at n = 3, k = 2, m = 16. -/
theorem batched_and_naive_are_lower_bounds_witness :
    2 ^ k_permutation_logarithm 3 2 16 ≤ nPermutations 3 2 ^ 2 ^ 16 ∧
    2 ^ naive_k_permutation_logarithm 3 2 16 ≤ nPermutations 3 2 ^ 2 ^ 16 :=
  batched_and_naive_are_lower_bounds 3 2 16 (by norm_num) (by norm_num) (le_refl 16)

/-! ### Claim C1: what `commit` persists -/

/-- C1, counterexample: at `participants = winners = 35` (admissible delay),
the entropy bound is violated — `k_permutation_logarithm(35, 35, 16)` is
`8711292 > 128 <<< 16 = 8388608` — yet the call does not fail with the
`SAFE_SIZE` (SafetyBoundExceeded) error: it fails with the `WINNERS_BOUND`
error of the static `winners < 35` check, which runs first. -/
theorem commit_entropy_violation_error_name :
    128 <<< 16 < k_permutation_logarithm 35 35 16 ∧
    commit 0 0 0 0 35 35 none = Except.error ContractError.WINNERS_BOUND ∧
    commit 0 0 0 0 35 35 none ≠ Except.error ContractError.SAFE_SIZE := by
  refine ⟨?_, rfl, by simp [commit]⟩
  have h : k_permutation_logarithm 35 35 16 = 8711292 := by decide
  rw [h]
  decide

/-- C1, amended: `commit(delay, participants = n, winners = k)` with
fractional precision P = 16 persists a CommitmentRecord for the caller if
and only if `1 ≤ k`, `2 ≤ n`, `k ≤ n` and
`k_permutation_logarithm(n, k, P) ≤ 128 <<< P` (given an admissible delay
and arguments within their ARC-4 widths `n < 2^32`, `k < 2^8`); and when
the entropy bound is violated on inputs that pass the static bounds checks
(including the `winners < 35` precheck), the call fails with the
SafetyBoundExceeded error (`SAFE_SIZE`) and no commitment is persisted
(the transaction aborts, leaving the caller's state unchanged). -/
theorem commit_persists_iff (gap r tx d n k : Nat) (st : Option Commitment)
    (hd : gap ≤ d) (hn32 : n < 2 ^ 32) (hk8 : k < 2 ^ 8) :
    ((∃ c, commit gap r tx d n k st = Except.ok (some c)) ↔
      1 ≤ k ∧ 2 ≤ n ∧ k ≤ n ∧
        k_permutation_logarithm n k LOG_PRECISION ≤ 128 <<< LOG_PRECISION) ∧
    (1 ≤ k → k < 35 → 2 ≤ n → k ≤ n →
      128 <<< LOG_PRECISION < k_permutation_logarithm n k LOG_PRECISION →
      commit gap r tx d n k st = Except.error ContractError.SAFE_SIZE) := by
  constructor
  · constructor
    · intro ⟨c, hc⟩
      unfold commit at hc
      rw [if_pos hd] at hc
      by_cases h2 : 1 ≤ k ∧ k < 35
      · rw [if_pos h2] at hc
        by_cases h3 : 2 ≤ n
        · rw [if_pos h3] at hc
          by_cases h4 : k ≤ n
          · rw [if_pos h4] at hc
            by_cases h5 : k_permutation_logarithm n k LOG_PRECISION
                ≤ 128 <<< LOG_PRECISION
            · exact ⟨h2.1, h3, h4, h5⟩
            · rw [if_neg h5] at hc
              exact absurd hc (by simp)
          · rw [if_neg h4] at hc
            exact absurd hc (by simp)
        · rw [if_neg h3] at hc
          exact absurd hc (by simp)
      · rw [if_neg h2] at hc
        exact absurd hc (by simp)
    · rintro ⟨hk1, hn2, hkn, hent⟩
      have hk35 : k < 35 := by
        by_contra hcon
        have hbig := kperm_exceeds_of_35_le n k LOG_PRECISION (by omega) hkn
          (by omega) hn32
        rw [Nat.shiftLeft_eq] at hent
        unfold LOG_PRECISION at hent hbig
        omega
      refine ⟨⟨tx, r + d, n, k⟩, ?_⟩
      unfold commit
      rw [if_pos hd, if_pos ⟨hk1, hk35⟩, if_pos hn2, if_pos hkn, if_pos hent]
  · intro hk1 hk35 hn2 hkn hbig
    unfold commit
    rw [if_pos hd, if_pos ⟨hk1, hk35⟩, if_pos hn2, if_pos hkn,
      if_neg (by omega)]

/-- Witness for the amended C1 at gap = 0, round = 0, tx = 7, delay = 0,
n = 2, k = 1 with no prior commitment. -/
theorem commit_persists_iff_witness :
    ((∃ c, commit 0 0 7 0 2 1 none = Except.ok (some c)) ↔
      1 ≤ 1 ∧ 2 ≤ 2 ∧ 1 ≤ 2 ∧
        k_permutation_logarithm 2 1 LOG_PRECISION ≤ 128 <<< LOG_PRECISION) ∧
    (1 ≤ 1 → 1 < 35 → 2 ≤ 2 → 1 ≤ 2 →
      128 <<< LOG_PRECISION < k_permutation_logarithm 2 1 LOG_PRECISION →
      commit 0 0 7 0 2 1 none = Except.error ContractError.SAFE_SIZE) :=
  commit_persists_iff 0 0 7 0 2 1 none (le_refl 0) (by norm_num) (by norm_num)

/-! ### Claim C9: a second commit silently overwrites -/

/-- C9: a committer who already holds a live commitment `old` and performs
a second `commit` that passes validation is never rejected on account of
the pending commitment: the call behaves exactly as with no prior
commitment, succeeds, and stores the new record in place of the old one
(the old record is gone from the slot). -/
theorem commit_overwrites_previous (gap r tx d n k : Nat) (old : Commitment)
    (hd : gap ≤ d) (hk1 : 1 ≤ k) (hk35 : k < 35) (hn2 : 2 ≤ n) (hkn : k ≤ n)
    (hent : k_permutation_logarithm n k LOG_PRECISION ≤ 128 <<< LOG_PRECISION) :
    commit gap r tx d n k (some old) =
      Except.ok (some ⟨tx, r + d, n, k⟩) ∧
    commit gap r tx d n k (some old) = commit gap r tx d n k none := by
  unfold commit
  rw [if_pos hd, if_pos ⟨hk1, hk35⟩, if_pos hn2, if_pos hkn, if_pos hent]
  exact ⟨rfl, rfl⟩

/-- Witness for C9: a second commit over the live record ⟨1, 2, 3, 4⟩. -/
theorem commit_overwrites_previous_witness :
    commit 0 0 7 0 2 1 (some ⟨1, 2, 3, 4⟩) =
      Except.ok (some ⟨7, 0 + 0, 2, 1⟩) ∧
    commit 0 0 7 0 2 1 (some ⟨1, 2, 3, 4⟩) = commit 0 0 7 0 2 1 none :=
  commit_overwrites_previous 0 0 7 0 2 1 ⟨1, 2, 3, 4⟩ (le_refl 0) (by norm_num)
    (by norm_num) (by norm_num) (by norm_num) (by decide)

/-! ### Claim C7: reveal before the committed round -/

/-- C7: a `reveal` issued while the caller's commitment targets a round not
yet reached fails with the `ROUND_ELAPSED` error, the transaction aborts
with no state change (the stored record is left intact in the caller's
slot), and the same commitment can later be revealed successfully once any
round `≥ c.round` is reached. -/
theorem reveal_before_round_retryable (c : Commitment) (cur : Nat)
    (draws : Nat → Nat) (h : cur < c.round) :
    reveal cur (some c) draws = Except.error ContractError.ROUND_ELAPSED ∧
    ∀ later, c.round ≤ later →
      reveal later (some c) draws =
        Except.ok (none, c.tx_id, revealWinners c.participants c.winners draws) := by
  constructor
  · show (if c.round ≤ cur then
        Except.ok (none, c.tx_id, revealWinners c.participants c.winners draws)
      else Except.error ContractError.ROUND_ELAPSED) = _
    rw [if_neg (by omega)]
  · intro later hl
    show (if c.round ≤ later then
        Except.ok (none, c.tx_id, revealWinners c.participants c.winners draws)
      else Except.error ContractError.ROUND_ELAPSED) = _
    rw [if_pos hl]

/-- Witness for C7 at commitment ⟨7, 5, 2, 1⟩ and current round 3. -/
theorem reveal_before_round_retryable_witness :
    reveal 3 (some ⟨7, 5, 2, 1⟩) (fun _ => 0) =
      Except.error ContractError.ROUND_ELAPSED ∧
    ∀ later, (5 : Nat) ≤ later →
      reveal later (some ⟨7, 5, 2, 1⟩) (fun _ => 0) =
        Except.ok (none, 7, revealWinners 2 1 (fun _ => 0)) :=
  reveal_before_round_retryable ⟨7, 5, 2, 1⟩ 3 (fun _ => 0) (by norm_num)

/-! ### The sparse permutation map of `reveal` -/

lemma linear_search_cons_hit (bk bv : Nat) (l : List (Nat × Nat)) (x : Nat)
    (h : bk = x) : linear_search ((bk, bv) :: l) x = (true, 0, bv) := by
  simp [linear_search, h]

lemma linear_search_cons_miss (bk bv : Nat) (l : List (Nat × Nat)) (x : Nat)
    (h : ¬bk = x) :
    linear_search ((bk, bv) :: l) x =
      ((linear_search l x).1, (linear_search l x).2.1 + 1,
        (linear_search l x).2.2) := by
  simp [linear_search, h]

lemma lsVal_cons (bk bv : Nat) (l : List (Nat × Nat)) (x : Nat) :
    lsVal ((bk, bv) :: l) x = if bk = x then some bv else lsVal l x := by
  by_cases h : bk = x
  · rw [if_pos h]
    unfold lsVal
    rw [linear_search_cons_hit bk bv l x h]
    simp
  · rw [if_neg h]
    unfold lsVal
    rw [linear_search_cons_miss bk bv l x h]

lemma lookupDefault_eq (bins : Nat → List (Nat × Nat)) (x : Nat) :
    lookupDefault bins x = (lsVal (bins (x % BINS)) x).getD x := by
  unfold lookupDefault lsVal
  by_cases h : (linear_search (bins (x % BINS)) x).1 <;> simp [h]

lemma lsVal_append_ne (l : List (Nat × Nat)) {kk : Nat} (v x : Nat) (h : kk ≠ x) :
    lsVal (l ++ [(kk, v)]) x = lsVal l x := by
  induction l with
  | nil =>
    rw [List.nil_append, lsVal_cons, if_neg h]
  | cons p l ih =>
    obtain ⟨bk, bv⟩ := p
    rw [List.cons_append, lsVal_cons, lsVal_cons, ih]

lemma lsVal_append_self (l : List (Nat × Nat)) (x v : Nat) (h : lsVal l x = none) :
    lsVal (l ++ [(x, v)]) x = some v := by
  induction l with
  | nil =>
    rw [List.nil_append, lsVal_cons, if_pos rfl]
  | cons p l ih =>
    obtain ⟨bk, bv⟩ := p
    rw [lsVal_cons] at h
    by_cases hbk : bk = x
    · rw [if_pos hbk] at h
      exact absurd h (by simp)
    · rw [if_neg hbk] at h
      rw [List.cons_append, lsVal_cons, if_neg hbk]
      exact ih h

lemma lsVal_replace_found_same (j v : Nat) : ∀ l : List (Nat × Nat),
    (linear_search l j).1 = true →
    lsVal (replaceValue l (linear_search l j).2.1 v) j = some v := by
  intro l
  induction l with
  | nil => intro h; simp [linear_search] at h
  | cons p l ih =>
    obtain ⟨bk, bv⟩ := p
    intro h
    by_cases hbk : bk = j
    · rw [linear_search_cons_hit bk bv l j hbk]
      show lsVal ((bk, v) :: l) j = some v
      rw [lsVal_cons, if_pos hbk]
    · rw [linear_search_cons_miss bk bv l j hbk] at h ⊢
      have h2 : (linear_search l j).1 = true := by simpa using h
      show lsVal ((bk, bv) :: replaceValue l (linear_search l j).2.1 v) j = some v
      rw [lsVal_cons, if_neg hbk]
      exact ih h2

lemma lsVal_replace_found_ne (j v x : Nat) (hne : j ≠ x) : ∀ l : List (Nat × Nat),
    (linear_search l j).1 = true →
    lsVal (replaceValue l (linear_search l j).2.1 v) x = lsVal l x := by
  intro l
  induction l with
  | nil => intro h; simp [linear_search] at h
  | cons p l ih =>
    obtain ⟨bk, bv⟩ := p
    intro h
    by_cases hbk : bk = j
    · rw [linear_search_cons_hit bk bv l j hbk]
      show lsVal ((bk, v) :: l) x = lsVal ((bk, bv) :: l) x
      have hbkx : bk ≠ x := by omega
      rw [lsVal_cons, lsVal_cons, if_neg hbkx, if_neg hbkx]
    · rw [linear_search_cons_miss bk bv l j hbk] at h ⊢
      have h2 : (linear_search l j).1 = true := by simpa using h
      show lsVal ((bk, bv) :: replaceValue l (linear_search l j).2.1 v) x =
        lsVal ((bk, bv) :: l) x
      rw [lsVal_cons, lsVal_cons]
      by_cases hbkx : bk = x
      · rw [if_pos hbkx, if_pos hbkx]
      · rw [if_neg hbkx, if_neg hbkx, ih h2]

/-! ### One step of the shuffle loop -/

lemma shuffleStep_winners (st : ShuffleState) (i j : Nat) :
    (shuffleStep st i j).winners = st.winners ++ [lookupDefault st.bins j] := rfl

lemma shuffleStep_bins (st : ShuffleState) (i j : Nat) (b : Nat) :
    (shuffleStep st i j).bins b =
      if b = j % BINS then
        if (linear_search (st.bins (j % BINS)) j).1 then
          replaceValue (st.bins (j % BINS))
            (linear_search (st.bins (j % BINS)) j).2.1 (lookupDefault st.bins i)
        else st.bins (j % BINS) ++ [(j, lookupDefault st.bins i)]
      else st.bins b := rfl

lemma shuffleStep_lookup_ne (st : ShuffleState) (i j x : Nat) (h : x ≠ j) :
    lookupDefault (shuffleStep st i j).bins x = lookupDefault st.bins x := by
  rw [lookupDefault_eq, lookupDefault_eq, shuffleStep_bins]
  by_cases hb : x % BINS = j % BINS
  · rw [if_pos hb, hb]
    by_cases hf : (linear_search (st.bins (j % BINS)) j).1
    · rw [if_pos hf, lsVal_replace_found_ne j _ x (by omega) _ hf]
    · rw [if_neg hf, lsVal_append_ne _ _ x (by omega)]
  · rw [if_neg hb]

lemma shuffleStep_lookup_self (st : ShuffleState) (i j : Nat) :
    lookupDefault (shuffleStep st i j).bins j = lookupDefault st.bins i := by
  rw [lookupDefault_eq, shuffleStep_bins, if_pos rfl]
  by_cases hf : (linear_search (st.bins (j % BINS)) j).1
  · rw [if_pos hf, lsVal_replace_found_same j _ _ hf]
    rfl
  · rw [if_neg hf, lsVal_append_self _ j _ ?_]
    · rfl
    · unfold lsVal
      rw [if_neg hf]

lemma lookupDefault_init (x : Nat) : lookupDefault initBins x = x := rfl

lemma shuffleRun_zero (draws : Nat → Nat) : shuffleRun draws 0 = ⟨initBins, []⟩ := rfl

lemma shuffleRun_succ (draws : Nat → Nat) (t : Nat) :
    shuffleRun draws (t + 1) = shuffleStep (shuffleRun draws t) t (draws t) := by
  unfold shuffleRun
  rw [List.range_succ, List.foldl_append, List.foldl_cons, List.foldl_nil]

lemma shuffleRun_winners_length (draws : Nat → Nat) :
    ∀ t, (shuffleRun draws t).winners.length = t := by
  intro t
  induction t with
  | zero => rfl
  | succ t ih =>
    rw [shuffleRun_succ, shuffleStep_winners, List.length_append, ih]
    rfl

/-- Main invariant of the sparse Knuth shuffle: after `t` iterations, the
winners emitted so far together with the current values of the abstract
array at the untouched positions `t, …, n-1` form a permutation of
`0, …, n-1`. -/
lemma shuffleRun_perm (n : Nat) (draws : Nat → Nat)
    (hd : ∀ i, i < n → i ≤ draws i ∧ draws i < n) :
    ∀ t, t ≤ n →
      ((shuffleRun draws t).winners ++
        ((List.range' t (n - t)).map
          (lookupDefault (shuffleRun draws t).bins))).Perm (List.range n) := by
  intro t
  induction t with
  | zero =>
    intro _
    rw [shuffleRun_zero]
    have h1 : ∀ x ∈ List.range' 0 (n - 0), lookupDefault initBins x = x :=
      fun x _ => rfl
    rw [List.map_congr_left h1, List.map_id', List.nil_append, Nat.sub_zero,
      ← List.range_eq_range']
  | succ t ih =>
    intro ht
    have ht' : t ≤ n := by omega
    have htn : t < n := by omega
    obtain ⟨hj1, hj2⟩ := hd t htn
    rw [shuffleRun_succ, shuffleStep_winners]
    have hsplit0 : List.range' t (n - t) = t :: List.range' (t + 1) (n - t - 1) := by
      have h : n - t - 1 + 1 = n - t := by omega
      conv_lhs => rw [← h]
      rw [List.range'_succ]
    have hnt : n - (t + 1) = n - t - 1 := by omega
    by_cases hjt : draws t = t
    · have hmap : (List.range' (t + 1) (n - (t + 1))).map
          (lookupDefault (shuffleStep (shuffleRun draws t) t (draws t)).bins) =
          (List.range' (t + 1) (n - (t + 1))).map
            (lookupDefault (shuffleRun draws t).bins) := by
        apply List.map_congr_left
        intro x hx
        have hxge := mem_range_ge hx
        exact shuffleStep_lookup_ne _ t (draws t) x (by omega)
      rw [hmap]
      refine List.Perm.trans ?_ (ih ht')
      rw [hsplit0, List.map_cons, hjt, List.append_assoc, List.singleton_append,
        hnt]
    · have hjgt : t + 1 ≤ draws t := by omega
      have hsplit : List.range' (t + 1) (n - t - 1) =
          List.range' (t + 1) (draws t - (t + 1)) ++
            draws t :: List.range' (draws t + 1) (n - (draws t + 1)) := by
        have h1 := List.range'_append_1 (t + 1) (draws t - (t + 1))
          (n - draws t)
        have h2 : t + 1 + (draws t - (t + 1)) = draws t := by omega
        have h3 : n - draws t + (draws t - (t + 1)) = n - t - 1 := by omega
        rw [h2, h3] at h1
        have h4 : List.range' (draws t) (n - draws t) =
            draws t :: List.range' (draws t + 1) (n - (draws t + 1)) := by
          have h5 : n - (draws t + 1) + 1 = n - draws t := by omega
          conv_lhs => rw [← h5]
          rw [List.range'_succ]
        rw [← h1, h4]
      have hm1 : (List.range' (t + 1) (draws t - (t + 1))).map
          (lookupDefault (shuffleStep (shuffleRun draws t) t (draws t)).bins) =
          (List.range' (t + 1) (draws t - (t + 1))).map
            (lookupDefault (shuffleRun draws t).bins) := by
        apply List.map_congr_left
        intro x hx
        rw [List.mem_range'] at hx
        obtain ⟨idx, hidx, rfl⟩ := hx
        exact shuffleStep_lookup_ne _ t (draws t) _ (by omega)
      have hm3 : (List.range' (draws t + 1) (n - (draws t + 1))).map
          (lookupDefault (shuffleStep (shuffleRun draws t) t (draws t)).bins) =
          (List.range' (draws t + 1) (n - (draws t + 1))).map
            (lookupDefault (shuffleRun draws t).bins) := by
        apply List.map_congr_left
        intro x hx
        have hxge := mem_range_ge hx
        exact shuffleStep_lookup_ne _ t (draws t) x (by omega)
      refine List.Perm.trans ?_ (ih ht')
      rw [hnt, hsplit0, hsplit]
      simp only [List.map_append, List.map_cons]
      rw [hm1, hm3, shuffleStep_lookup_self]
      apply List.perm_iff_count.mpr
      intro a
      simp only [List.count_append, List.count_cons, List.count_nil,
        List.count_singleton]
      omega

/-! ### Claim C3: the winners are k distinct in-range values -/

/-- C3: for every pair `(n, k)` with `2 ≤ n` and `1 ≤ k ≤ n` that `commit`
admits, and for every draw sequence the seed expander can produce (each
draw for counter `i` lying in `[i, n)`, the contract's 0-based convention),
the winners sequence produced by `reveal` contains exactly `k` values,
pairwise distinct, each in the valid range `0 ≤ value ≤ n - 1`. -/
theorem reveal_winners_distinct_in_range (n k : Nat) (draws : Nat → Nat)
    (hn : 2 ≤ n) (hk1 : 1 ≤ k) (hkn : k ≤ n) (hd : DrawsValid n draws) :
    (revealWinners n k draws).length = k ∧
    (revealWinners n k draws).Nodup ∧
    ∀ x ∈ revealWinners n k draws, x < n := by
  unfold DrawsValid at hd
  by_cases hcase : n = k
  · have ht : n_shuffles n k = k - 1 := by
      unfold n_shuffles
      rw [if_neg (by omega)]
    have hperm := shuffleRun_perm n draws hd (k - 1) (by omega)
    have hone : List.range' (k - 1) (n - (k - 1)) = [k - 1] := by
      have h1 : n - (k - 1) = 1 := by omega
      rw [h1, List.range'_one]
    rw [hone, List.map_cons, List.map_nil] at hperm
    have hrw : revealWinners n k draws =
        (shuffleRun draws (k - 1)).winners ++
          [lookupDefault (shuffleRun draws (k - 1)).bins (k - 1)] := by
      unfold revealWinners
      rw [ht, if_pos hcase]
      rfl
    rw [hrw]
    refine ⟨?_, ?_, ?_⟩
    · rw [List.length_append, shuffleRun_winners_length]
      simp only [List.length_cons, List.length_nil]
      omega
    · exact (hperm.nodup_iff).mpr (List.nodup_range n)
    · intro x hx
      exact List.mem_range.mp (hperm.mem_iff.mp hx)
  · have hkn' : k < n := by omega
    have ht : n_shuffles n k = k := by
      unfold n_shuffles
      rw [if_pos hkn']
    have hperm := shuffleRun_perm n draws hd k (by omega)
    have hrw : revealWinners n k draws = (shuffleRun draws k).winners := by
      unfold revealWinners
      rw [ht, if_neg hcase]
    rw [hrw]
    refine ⟨shuffleRun_winners_length draws k, ?_, ?_⟩
    · exact ((hperm.nodup_iff).mpr (List.nodup_range n)).of_append_left
    · intro x hx
      exact List.mem_range.mp (hperm.mem_iff.mp (List.mem_append_left _ hx))

/-- Witness for C3 at n = 3, k = 2 with the identity draw sequence. -/
theorem reveal_winners_distinct_in_range_witness :
    (revealWinners 3 2 (fun i => i)).length = 2 ∧
    (revealWinners 3 2 (fun i => i)).Nodup ∧
    ∀ x ∈ revealWinners 3 2 (fun i => i), x < 3 :=
  reveal_winners_distinct_in_range 3 2 (fun i => i) (by norm_num) (by norm_num)
    (by norm_num) (fun i hi => ⟨le_refl i, hi⟩)

/-! ### Claim C4: number of shuffle steps and the `k = n` special case -/

/-- C4: the shuffle in `reveal` performs exactly `min(k, n-1)` draw-and-swap
steps; every loop index stays below `n-1` and its draw range `[i, n)` has
width `n - i ≥ 2`, so even in the case `k = n` no draw is ever requested
from a zero-width range (modulus 1); and when `k = n` the value held at
index `n-1` — the stored sparse-map value if key `n-1` is present,
otherwise the index's own default value — is appended after the loop. -/
theorem reveal_step_count_and_last_slot (n k : Nat) (draws : Nat → Nat)
    (hn : 2 ≤ n) (hk1 : 1 ≤ k) (hkn : k ≤ n) :
    n_shuffles n k = min k (n - 1) ∧
    (∀ i, i < n_shuffles n k → i < n - 1 ∧ 2 ≤ n - i) ∧
    (shuffleRun draws (n_shuffles n k)).winners.length = n_shuffles n k ∧
    (k = n → revealWinners n k draws =
      (shuffleRun draws (n_shuffles n k)).winners ++
        [lookupDefault (shuffleRun draws (n_shuffles n k)).bins (n - 1)]) := by
  have hval : n_shuffles n k = min k (n - 1) := by
    unfold n_shuffles
    by_cases h : k < n
    · rw [if_pos h]
      omega
    · rw [if_neg h]
      omega
  refine ⟨hval, ?_, shuffleRun_winners_length draws _, ?_⟩
  · intro i hi
    rw [hval] at hi
    omega
  · intro hke
    subst hke
    have hne : ¬ k < k := by omega
    unfold revealWinners n_shuffles
    rw [if_neg hne, if_pos rfl]
    rfl

/-- Witness for C4 at n = 3, k = 3. -/
theorem reveal_step_count_and_last_slot_witness :
    n_shuffles 3 3 = min 3 (3 - 1) ∧
    (∀ i, i < n_shuffles 3 3 → i < 3 - 1 ∧ 2 ≤ 3 - i) ∧
    (shuffleRun (fun _ => 0) (n_shuffles 3 3)).winners.length = n_shuffles 3 3 ∧
    (3 = 3 → revealWinners 3 3 (fun _ => 0) =
      (shuffleRun (fun _ => 0) (n_shuffles 3 3)).winners ++
        [lookupDefault (shuffleRun (fun _ => 0) (n_shuffles 3 3)).bins (3 - 1)]) :=
  reveal_step_count_and_last_slot 3 3 (fun _ => 0) (by norm_num) (by norm_num)
    (le_refl 3)

end VerifiableShuffle
